import Mathlib

/-!
Verification of the reactive state-notification core of the y0n1/aio repository.

The embedding below translates the TypeScript sources into Lean:

* `Result`, `CommandState`, `Core.execute` — src/packages/react-mvvm/core/result.ts and
  src/packages/react-mvvm/core/command.ts (the `status`/`result` Command variant).
  `execute` is modelled as a function from the pre-state and the settled outcome of the
  wrapped action to the post-state, the list of listener-notification snapshots (the
  visible `(status, result)` pair at each `notifyListeners()` call), and a flag recording
  whether the wrapped action was invoked.
* `Internal.CommandState`, `Internal.clear` — src/packages/react-mvvm/internal/core/command.ts
  (the `running`/`completed`/`error` Command variant).
* `Draft.clear` — the public `clear()` of the Command revision in src/unnamed/part_037.
* `ChangeNotifier` and its operations — src/unnamed/part_038.  Listener identities are
  natural numbers; a JavaScript `Map`'s live iteration order is modelled by tagging each
  entry with a monotone sequence number: insertion appends with a fresh tag, re-`set` of a
  present key keeps its tag, deletion removes the entry, and the `for...of` iterator visits
  the entry with the least tag above the last visited tag.  A listener's behaviour during
  dispatch is an environment mapping its identity to the registry operations it performs.
* `Observable`, `setValue`, `subscribe` — src/packages/react-mvvm/core/Observable.ts over
  src/packages/react-mvvm/core/ChangeNotifier.ts (no disposal flag; `addListener` inserts
  only when absent).  Strict equality `===` is a Boolean-valued parameter; for JavaScript
  numbers it is `jsStrictEq` on `JSNum`, where `NaN === NaN` is `false`.
-/

/-- Result from src/packages/react-mvvm/core/result.ts: a frozen tagged union.
`Results.Success(value?)` may omit its value (TypeScript `T | void`), hence `Option T`. -/
inductive Result (T E : Type) where
  | success (value : Option T)
  | failure (error : E)
deriving Repr, DecidableEq

/-- The three-state status machine of the core Command. -/
inductive Status where
  | idle
  | running
  | done
deriving Repr, DecidableEq

/-- Observable state of the core Command: `#status` and `#result`. -/
structure CommandState (T E : Type) where
  status : Status
  result : Option (Result T E)
deriving Repr, DecidableEq

/-- What a listener observes at one `notifyListeners()` call of the Command. -/
abbrev Snapshot (T E : Type) := Status × Option (Result T E)

/-- How the awaited action settles: it returns a `Result`, or it throws / rejects with a
value, modelled by `throws`. -/
inductive ActionOutcome (T E : Type) where
  | returns (r : Result T E)
  | throws (error : E)
deriving Repr, DecidableEq

/-- The private `#clear()` of src/packages/react-mvvm/core/command.ts (lines 113-117):
sets status to idle, result to null, and calls `notifyListeners()`. -/
def Core.clearStep (st : CommandState T E) : CommandState T E × List (Snapshot T E) :=
  let st1 : CommandState T E := { st with status := Status.idle, result := none }
  (st1, [(st1.status, st1.result)])

/-- `Command.execute` of src/packages/react-mvvm/core/command.ts (lines 86-106).
Returns the post-state, the trace of notification snapshots, and whether the wrapped
action ran.  The source re-entrancy guard returns at once when already running; otherwise
it calls `#clear()` (which notifies), sets status running and notifies, awaits the action,
on normal return stores the result and notifies inside `try`, on a throw stores
`Results.Failure(error)` inside `catch`, and in `finally` sets status done and notifies. -/
def Core.execute (st : CommandState T E) (outcome : ActionOutcome T E) :
    CommandState T E × List (Snapshot T E) × Bool :=
  if st.status = Status.running then
    (st, [], false)
  else
    let p1 := Core.clearStep st
    let st2 : CommandState T E := { p1.1 with status := Status.running }
    let trace2 := p1.2 ++ [(st2.status, st2.result)]
    match outcome with
    | ActionOutcome.returns r =>
        let st3 : CommandState T E := { st2 with result := some r }
        let trace3 := trace2 ++ [(st3.status, st3.result)]
        let st4 : CommandState T E := { st3 with status := Status.done }
        (st4, trace3 ++ [(st4.status, st4.result)], true)
    | ActionOutcome.throws e =>
        let st3 : CommandState T E := { st2 with result := some (Result.failure e) }
        let st4 : CommandState T E := { st3 with status := Status.done }
        (st4, trace2 ++ [(st4.status, st4.result)], true)

/-- Observable state of the Command in src/packages/react-mvvm/internal/core/command.ts:
`#running`, `#completed`, `#error`. -/
structure Internal.CommandState (E : Type) where
  running : Bool
  completed : Bool
  error : Option E
deriving Repr, DecidableEq

/-- The public `clear()` of src/packages/react-mvvm/internal/core/command.ts
(lines 111-115): resets the three fields and returns; it contains no
`notifyListeners()` call, so its notification trace is empty. -/
def Internal.clear (st : Internal.CommandState E) :
    Internal.CommandState E × List (Bool × Bool × Option E) :=
  ({ running := false, completed := false, error := none }, [])

/-- The public `clear()` of the Command revision in src/unnamed/part_037 (lines 127-131):
sets result to null, status to idle, and calls `notifyListeners()` once. -/
def Draft.clear (st : CommandState T E) : CommandState T E × List (Snapshot T E) :=
  let st1 : CommandState T E := { st with result := none, status := Status.idle }
  (st1, [(st1.status, st1.result)])

/-- Listener identities: a listener is unique by identity in the source `Map`; identities
are modelled as natural numbers. -/
abbrev Key := Nat

/-- The `AddListenerOptions` interface of src/unnamed/part_038: `{ once?: boolean }`. -/
structure AddListenerOptions where
  once : Option Bool
deriving Repr, DecidableEq

/-- Truthiness of `options?.once` for an optional options object. -/
def isOnce : Option AddListenerOptions → Bool
  | some o => o.once.getD false
  | none => false

/-- One entry of the listener `Map`: the listener key, its options, and the sequence tag
recording its position for the live `Map` iterator (insertion appends a fresh tag;
re-`set` keeps the tag; deletion drops the entry). -/
structure Entry where
  seq : Nat
  key : Key
  opts : Option AddListenerOptions
deriving Repr, DecidableEq

/-- State of the ChangeNotifier of src/unnamed/part_038: the ordered listener map
(entries in ascending `seq` order), the next fresh sequence tag, and the disposed flag. -/
structure ChangeNotifier where
  listeners : List Entry
  nextSeq : Nat
  isDisposed : Bool
deriving Repr, DecidableEq

/-- The ChangeNotifier constructor: empty map, not disposed. -/
def ChangeNotifier.new : ChangeNotifier := ⟨[], 0, false⟩

/-- JavaScript `Map.prototype.set`: update the options in place when the key is present
(keeping its position), otherwise append a fresh entry. -/
def mapSet (k : Key) (o : Option AddListenerOptions) (s : ChangeNotifier) : ChangeNotifier :=
  if s.listeners.any (fun e => e.key == k) then
    { s with listeners :=
        s.listeners.map (fun e => if e.key == k then { e with opts := o } else e) }
  else
    { s with listeners := s.listeners ++ [⟨s.nextSeq, k, o⟩], nextSeq := s.nextSeq + 1 }

/-- JavaScript `Map.prototype.delete` on the entry list. -/
def mapDelete (k : Key) (l : List Entry) : List Entry :=
  l.filter (fun e => !(e.key == k))

/-- `ChangeNotifier.addListener` (src/unnamed/part_038 lines 102-110): no-op when
disposed, otherwise `Map.set`. -/
def ChangeNotifier.addListener (k : Key) (o : Option AddListenerOptions)
    (s : ChangeNotifier) : ChangeNotifier :=
  if s.isDisposed then s else mapSet k o s

/-- `ChangeNotifier.removeListener`: no-op when disposed, otherwise `Map.delete`. -/
def ChangeNotifier.removeListener (k : Key) (s : ChangeNotifier) : ChangeNotifier :=
  if s.isDisposed then s else { s with listeners := mapDelete k s.listeners }

/-- `ChangeNotifier[Symbol.dispose]`: set the disposed flag and clear the map. -/
def ChangeNotifier.dispose (s : ChangeNotifier) : ChangeNotifier :=
  { s with isDisposed := true, listeners := [] }

/-- `ChangeNotifier.hasListeners`: registry non-empty and not disposed. -/
def ChangeNotifier.hasListeners (s : ChangeNotifier) : Bool :=
  decide (0 < s.listeners.length) && !s.isDisposed

/-- A registry operation a listener may perform on the notifier during dispatch. -/
inductive RegOp where
  | add (k : Key) (o : Option AddListenerOptions)
  | remove (k : Key)
deriving Repr, DecidableEq

/-- Apply one registry operation through the public API. -/
def applyRegOp (s : ChangeNotifier) (op : RegOp) : ChangeNotifier :=
  match op with
  | RegOp.add k o => ChangeNotifier.addListener k o s
  | RegOp.remove k => ChangeNotifier.removeListener k s

/-- The behaviour of listeners: what registry operations each listener performs when it is
invoked. -/
abbrev Env := Key → List RegOp

/-- The live `Map` iterator: the next entry visited is the first one (in map order) whose
sequence tag is at least `low`. -/
def findNext (low : Nat) (l : List Entry) : Option Entry :=
  l.find? (fun e => low ≤ e.seq)

/-- The `for...of` dispatch loop of `notifyListeners` (src/unnamed/part_038 lines 85-90):
visit the next live entry, read its options, invoke the listener (applying its registry
operations), delete it when registered `once`, and continue past its tag.  `fuel` bounds
the number of iterations; the returned flag is `true` exactly when the iterator was
exhausted within that budget, i.e. when the source loop terminates. -/
def notifyLoop (env : Env) : Nat → Nat → ChangeNotifier → ChangeNotifier × List Key × Bool
  | 0, _, s => (s, [], false)
  | fuel + 1, low, s =>
    match findNext low s.listeners with
    | none => (s, [], true)
    | some e =>
        let s1 := (env e.key).foldl applyRegOp s
        let s2 := if isOnce e.opts then
            { s1 with listeners := mapDelete e.key s1.listeners } else s1
        let r := notifyLoop env fuel (e.seq + 1) s2
        (r.1, e.key :: r.2.1, r.2.2)

/-- `ChangeNotifier.notifyListeners` (src/unnamed/part_038 lines 80-91): return at once
when disposed, otherwise run the dispatch loop.  Returns the post-state, the invocation
log (listener keys in invocation order), and the loop-termination flag. -/
def ChangeNotifier.notifyListeners (env : Env) (s : ChangeNotifier) (fuel : Nat) :
    ChangeNotifier × List Key × Bool :=
  if s.isDisposed then (s, [], true) else notifyLoop env fuel 0 s

/-- A notifier populated by consecutive `addListener` calls with default options. -/
def mkNotifier (ks : List Key) : ChangeNotifier :=
  ks.foldl (fun s k => ChangeNotifier.addListener k none s) ChangeNotifier.new

/-- Boolean membership of a key in a key list. -/
def keyIn (k : Key) : List Key → Bool
  | [] => false
  | x :: xs => k == x || keyIn k xs

/-- The keys removed by a list of registry operations. -/
def removalsOf (ops : List RegOp) : List Key :=
  ops.filterMap (fun op => match op with
    | RegOp.remove k => some k
    | RegOp.add _ _ => none)

/-- A list of registry operations consisting of removals only. -/
def removalOnly (ops : List RegOp) : Bool :=
  ops.all (fun op => match op with
    | RegOp.remove _ => true
    | RegOp.add _ _ => false)

/-- Reference dispatch semantics for removal-only listener behaviour: walk the keys
registered at the start of the pass in insertion order, skip a key already removed, and
accumulate the removals performed by each invoked listener. -/
def dispatchSpec (env : Env) (removed : List Key) : List Key → List Key
  | [] => []
  | k :: ks =>
      if keyIn k removed then dispatchSpec env removed ks
      else k :: dispatchSpec env (removed ++ removalsOf (env k)) ks

/-- Entries with consecutive sequence tags starting at `n` and default options, as
produced by consecutive insertions. -/
def mkEntries (n : Nat) : List Key → List Entry
  | [] => []
  | k :: ks => ⟨n, k, none⟩ :: mkEntries (n + 1) ks

/-- The environment of the C3 witness: the spec scenario where listeners 0, 1, 2 are
registered in that order and listener 1 removes listener 2 during its own invocation. -/
def env3 : Env := fun k => if k == 1 then [RegOp.remove 2] else []

/-- The environment of the second C3 witness scenario: listener 1 removes the earlier
listener 0 during its own invocation. -/
def env3b : Env := fun k => if k == 1 then [RegOp.remove 0] else []

/-- The environment of the C9 witness: listener 1 registers the fresh listener 9 during
its own invocation. -/
def env9 : Env := fun k => if k == 1 then [RegOp.add 9 none] else []

/-- `addListener` of src/packages/react-mvvm/core/ChangeNotifier.ts (the notifier the
capital-O Observable composes): insert only when the key is absent; re-adding a present
listener does nothing.  That class has no disposal flag, so the embedding keeps
`isDisposed` constantly `false` and never consults it. -/
def capAddListener (k : Key) (o : Option AddListenerOptions) (s : ChangeNotifier) :
    ChangeNotifier :=
  if s.listeners.any (fun e => e.key == k) then s
  else { s with listeners := s.listeners ++ [⟨s.nextSeq, k, o⟩], nextSeq := s.nextSeq + 1 }

/-- `removeListener` of src/packages/react-mvvm/core/ChangeNotifier.ts: `Map.delete`. -/
def capRemoveListener (k : Key) (s : ChangeNotifier) : ChangeNotifier :=
  { s with listeners := mapDelete k s.listeners }

/-- `notifyListeners` of src/packages/react-mvvm/core/ChangeNotifier.ts: the same
`for...of` dispatch loop, with no disposal guard. -/
def capNotifyListeners (env : Env) (s : ChangeNotifier) (fuel : Nat) :
    ChangeNotifier × List Key × Bool :=
  notifyLoop env fuel 0 s

/-- State of Observable (src/packages/react-mvvm/core/Observable.ts): the current value
and the private composed notifier whose keys are the subscription adapter closures. -/
structure Observable (T : Type) where
  value : T
  notifier : ChangeNotifier
deriving Repr, DecidableEq

/-- The Observable constructor: initial value, fresh notifier. -/
def mkObservable (v : T) : Observable T := ⟨v, ChangeNotifier.new⟩

/-- `Observable.subscribe`: each call creates a fresh adapter closure (a fresh identity,
modelled by the next unused tag) wrapping the raw listener, registers it, and returns it
as the handle the unsubscribe closure will remove. -/
def Observable.subscribe (s : Observable T) (o : Option AddListenerOptions) :
    Observable T × Key :=
  let k := s.notifier.nextSeq
  ({ s with notifier := capAddListener k o s.notifier }, k)

/-- The closure returned by `subscribe`: removes exactly the adapter it created. -/
def Observable.unsubscribe (s : Observable T) (k : Key) : Observable T :=
  { s with notifier := capRemoveListener k s.notifier }

/-- The `value` setter of src/packages/react-mvvm/core/Observable.ts (lines 47-54): if the
new value is strictly equal (`===`, the Boolean parameter `beq`) to the current one,
return without storing or notifying; otherwise store it and call `notifyListeners()`.
Each invoked adapter calls the raw listener with `this.#value` at invocation time; the
adapters perform no registry operations, so `#value` is the newly stored value throughout
the pass.  Returns the post-state, the delivery log of (adapter, delivered value) pairs,
and the loop-termination flag. -/
def setValue (beq : T → T → Bool) (s : Observable T) (v : T) (fuel : Nat) :
    Observable T × List (Key × T) × Bool :=
  if beq s.value v then (s, [], true)
  else
    let s1 : Observable T := { s with value := v }
    let r := capNotifyListeners (fun _ => []) s1.notifier fuel
    ({ s1 with notifier := r.1 }, r.2.1.map (fun k => (k, s1.value)), r.2.2)

/-- An observable after `n` consecutive `subscribe` calls with default options. -/
def subscribeN (s : Observable T) : Nat → Observable T
  | 0 => s
  | n + 1 => (Observable.subscribe (subscribeN s n) none).1

/-- JavaScript number values, for the claim about `NaN`: either `NaN` or a numeric
value (modelled by a rational). -/
inductive JSNum where
  | nan
  | num (q : Rat)
deriving Repr, DecidableEq

/-- ECMAScript strict equality `===` on numbers: `false` whenever either operand is
`NaN`; value comparison otherwise. -/
def jsStrictEq : JSNum → JSNum → Bool
  | JSNum.nan, _ => false
  | JSNum.num _, JSNum.nan => false
  | JSNum.num a, JSNum.num b => a == b

/-- A public API call on a ChangeNotifier, for stating that a disposed notifier is inert
under every subsequent call sequence. -/
inductive ApiCall where
  | addL (k : Key) (o : Option AddListenerOptions)
  | removeL (k : Key)
  | notifyL
  | disposeL
deriving Repr, DecidableEq

/-- Apply one public API call, accumulating the invocation log of notify passes. -/
def applyApi (env : Env) (fuel : Nat) (st : ChangeNotifier × List Key) (c : ApiCall) :
    ChangeNotifier × List Key :=
  match c with
  | ApiCall.addL k o => (ChangeNotifier.addListener k o st.1, st.2)
  | ApiCall.removeL k => (ChangeNotifier.removeListener k st.1, st.2)
  | ApiCall.notifyL =>
      let r := ChangeNotifier.notifyListeners env st.1 fuel
      (r.1, st.2 ++ r.2.1)
  | ApiCall.disposeL => (ChangeNotifier.dispose st.1, st.2)

/-- The entries of a fresh notifier after `n` subscriptions: key `i` with tag `i`. -/
def pureEntries (n : Nat) : List Entry :=
  (List.range n).map (fun i => ⟨i, i, none⟩)

/-- C1: the claim says a non-suppressed `execute` call on the core Command produces exactly
two listener notifications, the first `(running, null)` and the second `(done, result)`.
Evaluating the embedded `Core.execute` at an idle command whose action returns
`Results.Success(7)` shows the code emits four notifications, the first of which is the
`(idle, null)` snapshot published by the `#clear()` call, and the third of which is
published while still `running` from inside the `try` block. -/
theorem c1_core_execute_four_notifications :
    (Core.execute (⟨Status.idle, none⟩ : CommandState Nat Nat)
        (ActionOutcome.returns (Result.success (some 7)))).2.1 =
      [(Status.idle, none), (Status.running, none),
       (Status.running, some (Result.success (some 7))),
       (Status.done, some (Result.success (some 7)))] ∧
    (Core.execute (⟨Status.idle, none⟩ : CommandState Nat Nat)
        (ActionOutcome.returns (Result.success (some 7)))).2.1.length ≠ 2 := by
  constructor
  · rfl
  · decide

/-- C2: the claim says status `running` implies result `null` at every point a listener can
observe the Command.  Evaluating `Core.execute` on a successful action shows the trace of
notification snapshots contains `(running, Success 7)`: the notification issued inside the
`try` block after the action resolves exposes a running status with a non-null result. -/
theorem c2_core_running_snapshot_nonnull :
    (Status.running, some (Result.success (some 7))) ∈
      (Core.execute (⟨Status.idle, none⟩ : CommandState Nat Nat)
        (ActionOutcome.returns (Result.success (some 7)))).2.1 ∧
    (some (Result.success (some 7)) : Option (Result Nat Nat)) ≠ none := by
  constructor
  · decide
  · decide

/-- C5: calling `execute` while the Command status is `running` is a no-op: the state is
unchanged, no notification is emitted, and the wrapped action is not invoked. -/
theorem c5_reentrancy_guard (st : CommandState T E) (outcome : ActionOutcome T E)
    (h : st.status = Status.running) :
    Core.execute st outcome = (st, [], false) := by
  unfold Core.execute
  rw [if_pos h]

/-- C5 witness: the guard at a concrete running command. -/
theorem c5_reentrancy_guard_witness :
    (⟨Status.running, none⟩ : CommandState Nat Nat).status = Status.running ∧
    Core.execute (⟨Status.running, none⟩ : CommandState Nat Nat)
        (ActionOutcome.returns (Result.success (some 1))) =
      (⟨Status.running, none⟩, [], false) :=
  ⟨rfl, c5_reentrancy_guard ⟨Status.running, none⟩
    (ActionOutcome.returns (Result.success (some 1))) rfl⟩

/-- C6: when the wrapped action throws (or its promise rejects) with a value `e`, a
non-suppressed `execute` stores `Results.Failure(e)` with the identical payload, ends with
status `done`, and — being modelled by a total function whose `catch` branch absorbs the
throw — never propagates the thrown value to the caller. -/
theorem c6_throw_captured (st : CommandState T E) (e : E)
    (h : ¬ st.status = Status.running) :
    (Core.execute st (ActionOutcome.throws e)).1.status = Status.done ∧
    (Core.execute st (ActionOutcome.throws e)).1.result = some (Result.failure e) := by
  unfold Core.execute
  rw [if_neg h]
  exact ⟨rfl, rfl⟩

/-- C6 witness: a concrete done command whose action throws the non-Error payload `5`. -/
theorem c6_throw_captured_witness :
    ¬ (⟨Status.done, some (Result.success (some 1))⟩ : CommandState Nat Nat).status =
        Status.running ∧
    (Core.execute (⟨Status.done, some (Result.success (some 1))⟩ : CommandState Nat Nat)
        (ActionOutcome.throws 5)).1.status = Status.done ∧
    (Core.execute (⟨Status.done, some (Result.success (some 1))⟩ : CommandState Nat Nat)
        (ActionOutcome.throws 5)).1.result = some (Result.failure 5) :=
  ⟨by decide,
   (c6_throw_captured ⟨Status.done, some (Result.success (some 1))⟩ 5 (by decide)).1,
   (c6_throw_captured ⟨Status.done, some (Result.success (some 1))⟩ 5 (by decide)).2⟩

/-- C7 counterexample: the public `clear()` of the internal Command variant
(src/packages/react-mvvm/internal/core/command.ts) notifies zero times, not exactly once
as the claim states for every Command. -/
theorem c7_internal_clear_no_notification :
    (Internal.clear (⟨true, false, some 3⟩ : Internal.CommandState Nat)).2.length ≠ 1 := by
  decide

/-- C7 amended: the Command revision of src/unnamed/part_037 exposes the claimed public
`clear()`: from any state — any status, any stored result — it sets status to `idle`,
result to `null`, and notifies exactly once with that snapshot. -/
theorem c7_draft_clear_resets_and_notifies_once (st : CommandState T E) :
    Draft.clear st = (⟨Status.idle, none⟩, [(Status.idle, none)]) := by
  cases st
  rfl

/-- Helper: `find?` ignores a prefix on which the predicate is false. -/
theorem find?_skip_front (p : Entry → Bool) (pre l : List Entry)
    (h : ∀ e ∈ pre, p e = false) : List.find? p (pre ++ l) = List.find? p l := by
  induction pre with
  | nil => rfl
  | cons a pre ih =>
      have ha : p a = false := h a (List.mem_cons_self a pre)
      rw [List.cons_append, List.find?_cons_of_neg _ (by simp [ha])]
      exact ih (fun e he => h e (List.mem_cons_of_mem a he))

/-- Helper: membership in an appended key list. -/
theorem keyIn_append (k : Key) (a b : List Key) :
    keyIn k (a ++ b) = (keyIn k a || keyIn k b) := by
  induction a with
  | nil => simp [keyIn]
  | cons x xs ih => simp [keyIn, ih, Bool.or_assoc]

/-- Helper: a removal-only effect list folds to a single filter of the listener map and
leaves the other fields untouched. -/
theorem foldl_applyRegOp_removalOnly (ops : List RegOp) (h : removalOnly ops = true) :
    ∀ s : ChangeNotifier, s.isDisposed = false →
      ops.foldl applyRegOp s =
        { s with listeners :=
            s.listeners.filter (fun e => !keyIn e.key (removalsOf ops)) } := by
  induction ops with
  | nil =>
      intro s _
      simp [removalsOf, keyIn]
  | cons op ops ih =>
      intro s hd
      cases op with
      | add k o => simp [removalOnly] at h
      | remove k =>
          have h' : removalOnly ops = true := by
            simp [removalOnly] at h ⊢
            exact h
          have step : applyRegOp s (RegOp.remove k) =
              { s with listeners := mapDelete k s.listeners } := by
            simp [applyRegOp, ChangeNotifier.removeListener, hd]
          rw [List.foldl_cons, step]
          rw [ih h' _ (by simp [hd])]
          simp only [mapDelete, List.filter_filter]
          congr 1
          apply List.filter_congr
          intro e _
          have : removalsOf (RegOp.remove k :: ops) = k :: removalsOf ops := by
            simp [removalsOf]
          rw [this]
          simp [keyIn, Bool.not_or, Bool.and_comm]

/-- Helper: pre-filtering by a removed-set is the same as carrying it in the
accumulator of `dispatchSpec`. -/
theorem dispatchSpec_append (env : Env) (A : List Key) :
    ∀ (ks : List Key) (B : List Key),
      dispatchSpec env (A ++ B) ks =
        dispatchSpec env B (ks.filter (fun k => !keyIn k A)) := by
  intro ks
  induction ks with
  | nil => intro B; rfl
  | cons k ks ih =>
      intro B
      cases hA : keyIn k A with
      | true =>
          simp [dispatchSpec, keyIn_append, hA, List.filter_cons, ih B]
      | false =>
          cases hB : keyIn k B with
          | true =>
              simp [dispatchSpec, keyIn_append, hA, hB, List.filter_cons, ih B]
          | false =>
              simp only [dispatchSpec, keyIn_append, hA, hB, Bool.false_or,
                List.filter_cons, Bool.not_false, if_pos, Bool.false_eq_true,
                if_false, ite_false, cond_false]
              rw [List.append_assoc]
              exact congrArg (fun t => k :: t) (ih (B ++ removalsOf (env k)))

/-- Helper: mapping keys commutes with filtering entries by key. -/
theorem map_key_filter (R : List Key) (l : List Entry) :
    (l.filter (fun e => !keyIn e.key R)).map Entry.key
      = (l.map Entry.key).filter (fun k => !keyIn k R) := by
  induction l with
  | nil => rfl
  | cons a l ih =>
      cases h : keyIn a.key R with
      | true => simp [List.filter_cons, h, ih]
      | false => simp [List.filter_cons, h, ih]

/-- Main dispatch lemma for removal-only listener behaviour: from any point of the pass,
the loop invokes exactly the pending entries in map order, skipping those removed before
their turn (as computed by `dispatchSpec`), and the loop terminates within the fuel
budget. -/
theorem notifyLoop_removalOnly (env : Env) (henv : ∀ k, removalOnly (env k) = true) :
    ∀ (fuel : Nat) (ts : List Entry) (low : Nat) (front : List Entry)
      (s : ChangeNotifier),
      s.isDisposed = false →
      s.listeners = front ++ ts →
      (∀ e ∈ front, e.seq < low) →
      (∀ e ∈ ts, low ≤ e.seq) →
      List.Pairwise (fun a b => a.seq < b.seq) ts →
      (∀ e ∈ ts, isOnce e.opts = false) →
      ts.length < fuel →
      (notifyLoop env fuel low s).2.1 = dispatchSpec env [] (ts.map Entry.key) ∧
      (notifyLoop env fuel low s).2.2 = true := by
  intro fuel
  induction fuel with
  | zero =>
      intro ts low front s _ _ _ _ _ _ hfuel
      exact absurd hfuel (Nat.not_lt_zero _)
  | succ f ih =>
      intro ts low front s hd hl hfront hts hpw honce hfuel
      cases ts with
      | nil =>
          have hfind : findNext low s.listeners = none := by
            rw [hl, List.append_nil]
            exact List.find?_eq_none.mpr (fun e he => by
              simpa using Nat.not_le.mpr (hfront e he))
          simp [notifyLoop, hfind, dispatchSpec]
      | cons e ts =>
          have hle : low ≤ e.seq := hts e (List.mem_cons_self e ts)
          have hfind : findNext low s.listeners = some e := by
            rw [hl]
            unfold findNext
            rw [find?_skip_front _ front _ (fun x hx => by
              simpa using Nat.not_le.mpr (hfront x hx))]
            exact List.find?_cons_of_pos _ (by simpa using hle)
          have honce_e : isOnce e.opts = false := honce e (List.mem_cons_self e ts)
          have hfold := foldl_applyRegOp_removalOnly (env e.key) (henv e.key) s hd
          have hrec := ih
            (ts.filter (fun x => !keyIn x.key (removalsOf (env e.key))))
            (e.seq + 1)
            ((front ++ [e]).filter (fun x => !keyIn x.key (removalsOf (env e.key))))
            ((env e.key).foldl applyRegOp s)
            (by rw [hfold]; exact hd)
            (by
              rw [hfold, hl]
              show ((front ++ e :: ts).filter _) = _
              rw [show front ++ e :: ts = (front ++ [e]) ++ ts by
                rw [List.append_assoc]; rfl]
              rw [List.filter_append])
            (by
              intro x hx
              have hx' := List.mem_filter.mp hx
              rcases List.mem_append.mp hx'.1 with hxf | hxe
              · exact Nat.lt_succ_of_lt (Nat.lt_of_lt_of_le (hfront x hxf) hle)
              · have : x = e := by simpa using hxe
                subst this
                exact Nat.lt_succ_self _)
            (by
              intro x hx
              have hx' := List.mem_filter.mp hx
              exact Nat.succ_le_of_lt (List.rel_of_pairwise_cons hpw hx'.1))
            ((List.pairwise_cons.mp hpw).2.filter _)
            (by
              intro x hx
              exact honce x (List.mem_cons_of_mem e (List.mem_filter.mp hx).1))
            (by
              have h1 := List.length_filter_le
                (fun x => !keyIn x.key (removalsOf (env e.key))) ts
              have h2 : ts.length < f := by
                simpa using Nat.lt_of_succ_lt_succ hfuel
              omega)
          rw [hfold] at hrec
          have hcast :
              dispatchSpec env []
                ((ts.filter (fun x => !keyIn x.key (removalsOf (env e.key)))).map
                  Entry.key)
                = dispatchSpec env (removalsOf (env e.key)) (ts.map Entry.key) := by
            rw [map_key_filter]
            have := dispatchSpec_append env (removalsOf (env e.key)) (ts.map Entry.key) []
            rw [List.append_nil] at this
            rw [this]
          simp only [notifyLoop, hfind, hfold, honce_e, Bool.false_eq_true, if_false,
            ite_false]
          refine ⟨?_, ?_⟩
          · show e.key :: _ = _
            rw [hrec.1, hcast]
            show _ = dispatchSpec env [] (e.key :: ts.map Entry.key)
            simp [dispatchSpec, keyIn]
          · exact hrec.2

/-- Helper: consecutive `addListener` calls with fresh distinct keys append fresh
entries in order. -/
theorem foldl_addListener_fresh (ks : List Key) :
    ∀ s : ChangeNotifier, s.isDisposed = false → ks.Nodup →
      (∀ k ∈ ks, s.listeners.any (fun e => e.key == k) = false) →
      ks.foldl (fun s k => ChangeNotifier.addListener k none s) s =
        { s with listeners := s.listeners ++ mkEntries s.nextSeq ks,
                 nextSeq := s.nextSeq + ks.length } := by
  induction ks with
  | nil =>
      intro s _ _ _
      simp [mkEntries]
  | cons k ks ih =>
      intro s hd hnd habs
      rw [List.foldl_cons]
      have hstep : ChangeNotifier.addListener k none s =
          { s with listeners := s.listeners ++ [⟨s.nextSeq, k, none⟩],
                   nextSeq := s.nextSeq + 1 } := by
        simp [ChangeNotifier.addListener, hd, mapSet,
          habs k (List.mem_cons_self k ks)]
      have habs' : ∀ k' ∈ ks,
          (s.listeners ++ [(⟨s.nextSeq, k, none⟩ : Entry)]).any
            (fun e => e.key == k') = false := by
        intro k' hk'
        rw [List.any_append]
        have h1 := habs k' (List.mem_cons_of_mem k hk')
        have h2 : (k == k') = false := by
          have : k' ≠ k := by
            intro hkk
            subst hkk
            exact (List.nodup_cons.mp hnd).1 hk'
          exact beq_eq_false_iff_ne.mpr (fun hkk => this hkk.symm)
        simp [h1, h2]
      rw [hstep, ih _ (by simp [hd]) (List.nodup_cons.mp hnd).2 habs']
      simp only [ChangeNotifier.mk.injEq, mkEntries, List.length_cons]
      refine ⟨?_, ?_, trivial⟩
      · rw [List.append_assoc]
        rfl
      · omega

/-- Helper: the notifier built from distinct keys has entries tagged 0, 1, 2, ... -/
theorem mkNotifier_char (ks : List Key) (h : ks.Nodup) :
    mkNotifier ks = ⟨mkEntries 0 ks, ks.length, false⟩ := by
  have := foldl_addListener_fresh ks ChangeNotifier.new rfl h
    (by intro k _; rfl)
  simpa [mkNotifier, ChangeNotifier.new] using this

/-- Helper: the keys of `mkEntries` are the given keys. -/
theorem mkEntries_map_key (ks : List Key) : ∀ n, (mkEntries n ks).map Entry.key = ks := by
  induction ks with
  | nil => intro n; rfl
  | cons k ks ih => intro n; simp [mkEntries, ih]

/-- Helper: `mkEntries n` tags are at least `n`. -/
theorem mkEntries_seq_ge (ks : List Key) : ∀ n, ∀ e ∈ mkEntries n ks, n ≤ e.seq := by
  induction ks with
  | nil => intro n e he; cases he
  | cons k ks ih =>
      intro n e he
      rcases he with _ | he
      · exact Nat.le_refl n
      · exact Nat.le_of_succ_le (ih (n + 1) e (by assumption))

/-- Helper: `mkEntries` tags are strictly increasing. -/
theorem mkEntries_pairwise (ks : List Key) :
    ∀ n, List.Pairwise (fun a b => a.seq < b.seq) (mkEntries n ks) := by
  induction ks with
  | nil => intro n; exact List.Pairwise.nil
  | cons k ks ih =>
      intro n
      rw [mkEntries, List.pairwise_cons]
      exact ⟨fun e he => mkEntries_seq_ge ks (n + 1) e he, ih (n + 1)⟩

/-- Helper: `mkEntries` entries carry no options. -/
theorem mkEntries_not_once (ks : List Key) :
    ∀ n, ∀ e ∈ mkEntries n ks, isOnce e.opts = false := by
  induction ks with
  | nil => intro n e he; cases he
  | cons k ks ih =>
      intro n e he
      rcases he with _ | he
      · rfl
      · exact ih (n + 1) e (by assumption)

/-- Helper: `mkEntries` has one entry per key. -/
theorem mkEntries_length (ks : List Key) : ∀ n, (mkEntries n ks).length = ks.length := by
  intro n
  have := congrArg List.length (mkEntries_map_key ks n)
  simpa using this

/-- Helper: every public API call leaves a disposed notifier, and the accumulated
invocation log, unchanged. -/
theorem applyApi_disposed (env : Env) (fuel : Nat) (s : ChangeNotifier)
    (hs : s.isDisposed = true) (hl : s.listeners = []) (log : List Key) (c : ApiCall) :
    applyApi env fuel (s, log) c = (s, log) := by
  cases c with
  | addL k o => simp [applyApi, ChangeNotifier.addListener, hs]
  | removeL k => simp [applyApi, ChangeNotifier.removeListener, hs]
  | notifyL => simp [applyApi, ChangeNotifier.notifyListeners, hs]
  | disposeL =>
      simp only [applyApi, ChangeNotifier.dispose, Prod.mk.injEq]
      refine ⟨?_, trivial⟩
      cases s
      simp_all

/-- Helper: the pure dispatch loop — when every pending listener performs no registry
operation and none is `once`, the loop invokes all pending entries in order and leaves
the notifier state unchanged. -/
theorem notifyLoop_pure (env : Env) :
    ∀ (fuel : Nat) (ts : List Entry) (low : Nat) (front : List Entry)
      (s : ChangeNotifier),
      s.listeners = front ++ ts →
      (∀ e ∈ front, e.seq < low) →
      (∀ e ∈ ts, low ≤ e.seq) →
      List.Pairwise (fun x y => x.seq < y.seq) ts →
      (∀ e ∈ ts, isOnce e.opts = false) →
      (∀ e ∈ ts, env e.key = []) →
      ts.length < fuel →
      notifyLoop env fuel low s = (s, ts.map Entry.key, true) := by
  intro fuel
  induction fuel with
  | zero =>
      intro ts low front s _ _ _ _ _ _ hfuel
      exact absurd hfuel (Nat.not_lt_zero _)
  | succ f ih =>
      intro ts low front s hl hfront hts hpw honce hpure hfuel
      cases ts with
      | nil =>
          have hfind : findNext low s.listeners = none := by
            rw [hl, List.append_nil]
            exact List.find?_eq_none.mpr (fun e he => by
              simpa using Nat.not_le.mpr (hfront e he))
          simp [notifyLoop, hfind]
      | cons e ts =>
          have hle : low ≤ e.seq := hts e (List.mem_cons_self e ts)
          have hfind : findNext low s.listeners = some e := by
            rw [hl]
            unfold findNext
            rw [find?_skip_front _ front _ (fun x hx => by
              simpa using Nat.not_le.mpr (hfront x hx))]
            exact List.find?_cons_of_pos _ (by simpa using hle)
          have hpure_e : env e.key = [] := hpure e (List.mem_cons_self e ts)
          have honce_e : isOnce e.opts = false := honce e (List.mem_cons_self e ts)
          have hrec := ih ts (e.seq + 1) (front ++ [e]) s
            (by rw [hl, List.append_assoc, List.singleton_append])
            (by
              intro x hx
              rcases List.mem_append.mp hx with hxf | hxe
              · exact Nat.lt_succ_of_lt (Nat.lt_of_lt_of_le (hfront x hxf) hle)
              · have : x = e := by simpa using hxe
                subst this
                exact Nat.lt_succ_self _)
            (fun x hx => Nat.succ_le_of_lt (List.rel_of_pairwise_cons hpw hx))
            ((List.pairwise_cons.mp hpw).2)
            (fun x hx => honce x (List.mem_cons_of_mem e hx))
            (fun x hx => hpure x (List.mem_cons_of_mem e hx))
            (by simpa using Nat.lt_of_succ_lt_succ hfuel)
          simp [notifyLoop, hfind, hpure_e, honce_e, hrec]

/-- C4: once a ChangeNotifier is disposed, every subsequent sequence of `addListener`,
`removeListener`, `notifyListeners` (or repeated dispose) calls has zero observable
effect: the state never changes, no listener is ever invoked (the accumulated invocation
log stays empty), nothing throws (all operations are total functions), and
`hasListeners` reads false. -/
theorem c4_disposed_inert (s : ChangeNotifier) (env : Env) (fuel : Nat)
    (calls : List ApiCall) :
    (calls.foldl (applyApi env fuel) (ChangeNotifier.dispose s, [])).1 =
      ChangeNotifier.dispose s ∧
    (calls.foldl (applyApi env fuel) (ChangeNotifier.dispose s, [])).2 = ([] : List Key) ∧
    (ChangeNotifier.dispose s).hasListeners = false := by
  have hfix : ∀ (cs : List ApiCall) (log : List Key),
      cs.foldl (applyApi env fuel) (ChangeNotifier.dispose s, log) =
        (ChangeNotifier.dispose s, log) := by
    intro cs
    induction cs with
    | nil => intro log; rfl
    | cons c cs ih =>
        intro log
        rw [List.foldl_cons, applyApi_disposed env fuel _ rfl rfl log c]
        exact ih log
  refine ⟨by rw [hfix], by rw [hfix], rfl⟩

/-- C3: one `notifyListeners` pass over listeners registered in insertion order, whose
behaviour consists of removals only, invokes exactly the listeners present at the start
of the pass, in insertion order, never throwing (the loop terminates: flag `true`),
never double-invoking, and skipping precisely a listener removed by an earlier listener
before its turn — the invocation log equals the sequential-removal reference semantics
`dispatchSpec`. -/
theorem c3_dispatch_tolerates_removal (ks : List Key) (env : Env) (fuel : Nat)
    (hnd : ks.Nodup) (henv : ∀ k, removalOnly (env k) = true)
    (hf : ks.length < fuel) :
    (ChangeNotifier.notifyListeners env (mkNotifier ks) fuel).2.1 =
      dispatchSpec env [] ks ∧
    (ChangeNotifier.notifyListeners env (mkNotifier ks) fuel).2.2 = true := by
  rw [mkNotifier_char ks hnd]
  have hloop := notifyLoop_removalOnly env henv fuel (mkEntries 0 ks) 0 []
    ⟨mkEntries 0 ks, ks.length, false⟩ rfl (by simp)
    (by intro e he; cases he)
    (fun e _ => Nat.zero_le _)
    (mkEntries_pairwise ks 0)
    (mkEntries_not_once ks 0)
    (by rw [mkEntries_length]; exact hf)
  rw [mkEntries_map_key] at hloop
  unfold ChangeNotifier.notifyListeners
  simpa using hloop

/-- C3 witness: the spec scenarios.  Listeners 0, 1, 2 in that order with listener 1
removing listener 2 mid-dispatch log `[0, 1]` in one pass; and with listener 1 removing
the earlier listener 0, the first pass logs `[0, 1]` while a second pass logs only `[1]`
(the removal persists across passes). -/
theorem c3_dispatch_tolerates_removal_witness :
    ([0, 1, 2] : List Key).Nodup ∧
    (ChangeNotifier.notifyListeners env3 (mkNotifier [0, 1, 2]) 4).2.1 = [0, 1] ∧
    (ChangeNotifier.notifyListeners env3 (mkNotifier [0, 1, 2]) 4).2.2 = true ∧
    (ChangeNotifier.notifyListeners env3b (mkNotifier [0, 1]) 3).2.1 = [0, 1] ∧
    (ChangeNotifier.notifyListeners env3b
      ((ChangeNotifier.notifyListeners env3b (mkNotifier [0, 1]) 3).1) 3).2.1 = [1] := by
  have henv : ∀ k, removalOnly (env3 k) = true := by
    intro k
    unfold env3
    by_cases h : (k == 1) = true
    · simp [h, removalOnly]
    · simp [h, removalOnly]
  have h := c3_dispatch_tolerates_removal [0, 1, 2] env3 4 (by decide) henv (by decide)
  refine ⟨by decide, ?_, h.2, by decide, by decide⟩
  rw [h.1]
  decide

/-- Helper: one pass in which exactly one pending listener `a` registers a fresh listener
`b` while every other involved listener is pure: the loop invokes the pending entries in
order and afterwards `b`, whose entry was appended to the live map mid-pass. -/
theorem notifyLoop_single_add (env : Env) (a b : Key)
    (henva : env a = [RegOp.add b none]) (henvo : ∀ k, ¬ k = a → env k = []) :
    ∀ (fuel : Nat) (preE : List Entry) (aE : Entry) (postE : List Entry) (low : Nat)
      (front : List Entry) (s : ChangeNotifier),
      s.isDisposed = false →
      s.listeners = front ++ (preE ++ aE :: postE) →
      aE.key = a →
      (∀ e ∈ front, e.seq < low) →
      (∀ e ∈ preE ++ aE :: postE, low ≤ e.seq) →
      List.Pairwise (fun x y => x.seq < y.seq) (preE ++ aE :: postE) →
      (∀ e ∈ preE ++ aE :: postE, isOnce e.opts = false) →
      (∀ e ∈ s.listeners, ¬ e.key = b) →
      (∀ e ∈ preE, ¬ e.key = a) →
      (∀ e ∈ postE, ¬ e.key = a) →
      (∀ e ∈ s.listeners, e.seq < s.nextSeq) →
      preE.length + postE.length + 3 ≤ fuel →
      (notifyLoop env fuel low s).2.1 =
        preE.map Entry.key ++ aE.key :: (postE.map Entry.key ++ [b]) ∧
      (notifyLoop env fuel low s).2.2 = true := by
  intro fuel
  induction fuel with
  | zero =>
      intro preE aE postE low front s _ _ _ _ _ _ _ _ _ _ _ hf
      omega
  | succ f ih =>
      intro preE aE postE low front s hd hl hak hfront hts hpw honce hbfresh hprea
        hposta hinv hf
      cases preE with
      | nil =>
          simp only [List.nil_append] at hl hts hpw honce
          have haEmem : aE ∈ s.listeners := by
            rw [hl]
            exact List.mem_append.mpr (Or.inr (List.mem_cons_self aE postE))
          have hle : low ≤ aE.seq := hts aE (List.mem_cons_self aE postE)
          have hfind : findNext low s.listeners = some aE := by
            rw [hl]
            unfold findNext
            rw [find?_skip_front _ front _ (fun x hx => by
              simpa using Nat.not_le.mpr (hfront x hx))]
            exact List.find?_cons_of_pos _ (by simpa using hle)
          have hanyb : s.listeners.any (fun e => e.key == b) = false := by
            rw [List.any_eq_false]
            intro x hx
            simpa using hbfresh x hx
          have hfold : (env aE.key).foldl applyRegOp s =
              { s with listeners := s.listeners ++ [⟨s.nextSeq, b, none⟩],
                       nextSeq := s.nextSeq + 1 } := by
            rw [hak, henva]
            show applyRegOp s (RegOp.add b none) = _
            simp [applyRegOp, ChangeNotifier.addListener, hd, mapSet, hanyb]
          have honce_a : isOnce aE.opts = false := honce aE (List.mem_cons_self aE postE)
          have hanotb : ¬ a = b := by
            have := hbfresh aE haEmem
            rw [hak] at this
            exact this
          have hpure := notifyLoop_pure env f
            (postE ++ [⟨s.nextSeq, b, none⟩]) (aE.seq + 1) (front ++ [aE])
            { s with listeners := s.listeners ++ [⟨s.nextSeq, b, none⟩],
                     nextSeq := s.nextSeq + 1 }
            (by
              show s.listeners ++ [(⟨s.nextSeq, b, none⟩ : Entry)] = _
              rw [hl]
              simp [List.append_assoc])
            (by
              intro x hx
              rcases List.mem_append.mp hx with hxf | hxe
              · exact Nat.lt_succ_of_lt (Nat.lt_of_lt_of_le (hfront x hxf) hle)
              · have : x = aE := by simpa using hxe
                subst this
                exact Nat.lt_succ_self _)
            (by
              intro x hx
              rcases List.mem_append.mp hx with hxp | hxb
              · exact Nat.succ_le_of_lt (List.rel_of_pairwise_cons hpw hxp)
              · have : x = (⟨s.nextSeq, b, none⟩ : Entry) := by simpa using hxb
                subst this
                exact Nat.succ_le_of_lt (hinv aE haEmem))
            (by
              rw [List.pairwise_append]
              refine ⟨(List.pairwise_cons.mp hpw).2, List.pairwise_singleton _ _, ?_⟩
              intro x hxp y hyb
              have hy : y = (⟨s.nextSeq, b, none⟩ : Entry) := by simpa using hyb
              subst hy
              exact hinv x (by
                rw [hl]
                exact List.mem_append.mpr (Or.inr (List.mem_cons_of_mem aE hxp))))
            (by
              intro x hx
              rcases List.mem_append.mp hx with hxp | hxb
              · exact honce x (List.mem_cons_of_mem aE hxp)
              · have : x = (⟨s.nextSeq, b, none⟩ : Entry) := by simpa using hxb
                subst this
                rfl)
            (by
              intro x hx
              rcases List.mem_append.mp hx with hxp | hxb
              · exact henvo x.key (hposta x hxp)
              · have : x = (⟨s.nextSeq, b, none⟩ : Entry) := by simpa using hxb
                subst this
                exact henvo b (fun hba => hanotb hba.symm))
            (by
              simp only [List.length_append, List.length_singleton]
              omega)
          simp only [notifyLoop, hfind, hfold, honce_a, Bool.false_eq_true, if_false,
            ite_false, hpure]
          simp

      | cons p preE =>
          simp only [List.cons_append] at hl hts hpw honce
          have hle : low ≤ p.seq := hts p (List.mem_cons_self p _)
          have hfind : findNext low s.listeners = some p := by
            rw [hl]
            unfold findNext
            rw [find?_skip_front _ front _ (fun x hx => by
              simpa using Nat.not_le.mpr (hfront x hx))]
            exact List.find?_cons_of_pos _ (by simpa using hle)
          have hpure_p : env p.key = [] := henvo p.key (hprea p (List.mem_cons_self p preE))
          have honce_p : isOnce p.opts = false := honce p (List.mem_cons_self p _)
          have hrec := ih preE aE postE (p.seq + 1) (front ++ [p]) s hd
            (by rw [hl, List.append_assoc, List.singleton_append])
            hak
            (by
              intro x hx
              rcases List.mem_append.mp hx with hxf | hxp
              · exact Nat.lt_succ_of_lt (Nat.lt_of_lt_of_le (hfront x hxf) hle)
              · have : x = p := by simpa using hxp
                subst this
                exact Nat.lt_succ_self _)
            (fun x hx => Nat.succ_le_of_lt (List.rel_of_pairwise_cons hpw hx))
            ((List.pairwise_cons.mp hpw).2)
            (fun x hx => honce x (List.mem_cons_of_mem p hx))
            hbfresh
            (fun x hx => hprea x (List.mem_cons_of_mem p hx))
            hposta
            hinv
            (by
              simp only [List.length_cons] at hf
              omega)
          simp only [notifyLoop, hfind, hpure_p, List.foldl_nil, honce_p,
            Bool.false_eq_true, if_false, ite_false]
          refine ⟨?_, hrec.2⟩
          show p.key :: _ = _
          rw [hrec.1]
          rfl

/-- Helper: `mkEntries` distributes over append, continuing the tag counter. -/
theorem mkEntries_append (xs : List Key) :
    ∀ (n : Nat) (ys : List Key),
      mkEntries n (xs ++ ys) = mkEntries n xs ++ mkEntries (n + xs.length) ys := by
  induction xs with
  | nil => intro n ys; simp [mkEntries]
  | cons x xs ih =>
      intro n ys
      rw [List.cons_append, mkEntries, mkEntries, ih (n + 1) ys, List.cons_append]
      have : n + 1 + xs.length = n + (x :: xs).length := by
        simp only [List.length_cons]
        omega
      rw [this]

/-- Helper: keys of `mkEntries` entries come from the key list. -/
theorem mkEntries_key_mem (ks : List Key) :
    ∀ n, ∀ e ∈ mkEntries n ks, e.key ∈ ks := by
  induction ks with
  | nil => intro n e he; cases he
  | cons k ks ih =>
      intro n e he
      rcases he with _ | he
      · exact List.mem_cons_self k ks
      · exact List.mem_cons_of_mem k (ih (n + 1) e (by assumption))

/-- Helper: `mkEntries n ks` tags are below `n + ks.length`. -/
theorem mkEntries_seq_lt (ks : List Key) :
    ∀ n, ∀ e ∈ mkEntries n ks, e.seq < n + ks.length := by
  induction ks with
  | nil => intro n e he; cases he
  | cons k ks ih =>
      intro n e he
      rcases he with _ | he
      · simp [List.length_cons]
      · have := ih (n + 1) e (by assumption)
        simp [List.length_cons] at this ⊢
        omega

/-- C9: a listener registered mid-pass by an earlier listener is itself invoked before
the pass ends.  With distinct listeners `pre ++ [a] ++ post` registered in that order,
the fresh key `b` absent, listener `a` registering `b` during its own invocation and
every other listener passive, one `notifyListeners` pass invokes `pre`, then `a`, then
`post`, and finally the mid-pass addition `b`; the loop terminates. -/
theorem c9_midpass_addition_invoked (pre post : List Key) (a b : Key) (env : Env)
    (fuel : Nat)
    (hnd : (pre ++ a :: post).Nodup)
    (hb : ∀ k ∈ pre ++ a :: post, ¬ k = b)
    (henva : env a = [RegOp.add b none])
    (henvo : ∀ k, ¬ k = a → env k = [])
    (hf : (pre ++ a :: post).length + 2 ≤ fuel) :
    (ChangeNotifier.notifyListeners env (mkNotifier (pre ++ a :: post)) fuel).2.1 =
      pre ++ a :: (post ++ [b]) ∧
    (ChangeNotifier.notifyListeners env (mkNotifier (pre ++ a :: post)) fuel).2.2 =
      true := by
  rw [mkNotifier_char _ hnd]
  have heq : mkEntries 0 (pre ++ a :: post) =
      mkEntries 0 pre ++
        ((⟨pre.length, a, none⟩ : Entry) :: mkEntries (pre.length + 1) post) := by
    rw [mkEntries_append pre 0 (a :: post), mkEntries]
    simp
  have hnd' := List.nodup_append.mp hnd
  have hloop := notifyLoop_single_add env a b henva henvo fuel
    (mkEntries 0 pre) ⟨pre.length, a, none⟩ (mkEntries (pre.length + 1) post) 0 []
    ⟨mkEntries 0 (pre ++ a :: post), (pre ++ a :: post).length, false⟩
    rfl
    (by rw [List.nil_append]; exact heq)
    rfl
    (by intro e he; cases he)
    (fun e _ => Nat.zero_le _)
    (by rw [← heq]; exact mkEntries_pairwise (pre ++ a :: post) 0)
    (by rw [← heq]; exact mkEntries_not_once (pre ++ a :: post) 0)
    (by
      intro e he
      exact hb e.key (mkEntries_key_mem (pre ++ a :: post) 0 e he))
    (by
      intro e he
      have hkey := mkEntries_key_mem pre 0 e he
      intro hka
      have : e.key ∈ a :: post := by rw [hka]; exact List.mem_cons_self a post
      exact hnd'.2.2 hkey this)
    (by
      intro e he
      have hkey := mkEntries_key_mem post (pre.length + 1) e he
      intro hka
      have hnp := List.nodup_cons.mp hnd'.2.1
      rw [hka] at hkey
      exact hnp.1 hkey)
    (by
      intro e he
      have := mkEntries_seq_lt (pre ++ a :: post) 0 e he
      show e.seq < (pre ++ a :: post).length
      omega)
    (by
      have h1 := mkEntries_length pre 0
      have h2 := mkEntries_length post (pre.length + 1)
      simp only [List.length_append, List.length_cons] at hf
      omega)
  unfold ChangeNotifier.notifyListeners
  simp only [Bool.false_eq_true, if_false, ite_false]
  rw [mkEntries_map_key, mkEntries_map_key] at hloop
  simpa using hloop

/-- C9 witness: listeners 0, 1, 2 with listener 1 adding the fresh listener 9 mid-pass;
one pass logs 0, 1, 2 and then the freshly added 9. -/
theorem c9_midpass_addition_invoked_witness :
    ([0] ++ 1 :: [2] : List Key).Nodup ∧
    env9 1 = [RegOp.add 9 none] ∧
    (ChangeNotifier.notifyListeners env9 (mkNotifier ([0] ++ 1 :: [2])) 5).2.1 =
      [0, 1, 2, 9] ∧
    (ChangeNotifier.notifyListeners env9 (mkNotifier ([0] ++ 1 :: [2])) 5).2.2 =
      true := by
  have henvo : ∀ k, ¬ k = (1 : Key) → env9 k = [] := by
    intro k hk
    unfold env9
    simp [hk]
  have h := c9_midpass_addition_invoked [0] [2] 1 9 env9 5 (by decide) (by decide)
    (by decide) henvo (by decide)
  exact ⟨by decide, by decide, h.1, h.2⟩

/-- Helper: the adapter entries after `n` subscriptions have keys `0, 1, ..., n-1`. -/
theorem pureEntries_map_key (n : Nat) :
    (pureEntries n).map Entry.key = List.range n := by
  unfold pureEntries
  rw [List.map_map]
  exact List.map_id _

/-- Helper: the adapter entries after `n` subscriptions have strictly increasing tags. -/
theorem pureEntries_pairwise (n : Nat) :
    List.Pairwise (fun x y => x.seq < y.seq) (pureEntries n) :=
  (List.pairwise_lt_range n).map _ (fun _ _ h => h)

/-- Helper: the adapter entries after `n` subscriptions carry no options. -/
theorem pureEntries_not_once (n : Nat) :
    ∀ e ∈ pureEntries n, isOnce e.opts = false := by
  intro e he
  unfold pureEntries at he
  rcases List.mem_map.mp he with ⟨i, _, rfl⟩
  rfl

/-- Helper: an observable after `n` subscriptions is the initial value together with the
adapters `0, ..., n-1`. -/
theorem subscribeN_char (T : Type) (v0 : T) :
    ∀ n : Nat, subscribeN (mkObservable v0) n = ⟨v0, ⟨pureEntries n, n, false⟩⟩ := by
  intro n
  induction n with
  | zero => rfl
  | succ n ih =>
      have hany : (pureEntries n).any (fun e => e.key == n) = false := by
        rw [List.any_eq_false]
        intro e he
        unfold pureEntries at he
        rcases List.mem_map.mp he with ⟨i, hi, rfl⟩
        have : i ≠ n := Nat.ne_of_lt (List.mem_range.mp hi)
        simp [this]
      have hpe : pureEntries (n + 1) = pureEntries n ++ [⟨n, n, none⟩] := by
        unfold pureEntries
        rw [List.range_succ, List.map_append]
        rfl
      rw [subscribeN, ih]
      unfold Observable.subscribe capAddListener
      simp only [hany, Bool.false_eq_true, if_false, ite_false, hpe]

/-- Helper: writing a strictly different value to an observable with `n` passive
subscriptions stores the value, dispatches to every adapter in subscription order
delivering the new value, and leaves the subscription registry unchanged. -/
theorem setValue_subscribeN (T : Type) (beq : T → T → Bool) (v0 v : T) (n fuel : Nat)
    (hneq : beq v0 v = false) (hf : n < fuel) :
    setValue beq (subscribeN (mkObservable v0) n) v fuel =
      (⟨v, ⟨pureEntries n, n, false⟩⟩,
       (List.range n).map (fun k => (k, v)), true) := by
  rw [subscribeN_char]
  have hloop := notifyLoop_pure (fun _ => []) fuel (pureEntries n) 0 []
    ⟨pureEntries n, n, false⟩
    rfl
    (by intro e he; cases he)
    (fun e _ => Nat.zero_le _)
    (pureEntries_pairwise n)
    (pureEntries_not_once n)
    (fun e _ => rfl)
    (by
      unfold pureEntries
      simp only [List.length_map, List.length_range]
      exact hf)
  unfold setValue
  rw [if_neg (by simp [hneq])]
  unfold capNotifyListeners
  simp only [hloop, pureEntries_map_key]

/-- Helper: writing a strictly equal value is a complete no-op. -/
theorem setValue_suppressed (T : Type) (beq : T → T → Bool) (s : Observable T) (v : T)
    (fuel : Nat) (heq : beq s.value v = true) :
    setValue beq s v fuel = (s, [], true) := by
  unfold setValue
  rw [if_pos heq]

/-- C8: the Observable value setter suppresses a write of a strictly-equal (`===`) value
— nothing is stored and zero subscribers are invoked — while a strictly different value
is stored and then every currently subscribed listener is invoked exactly once, in
subscription order, receiving the new value (subscribers `0, ..., n-1` each appear once
in the delivery log, paired with `v`). -/
theorem c8_observable_setter (T : Type) (beq : T → T → Bool) :
    (∀ (s : Observable T) (v : T) (fuel : Nat),
      beq s.value v = true → setValue beq s v fuel = (s, [], true)) ∧
    (∀ (v0 v : T) (n fuel : Nat), beq v0 v = false → n < fuel →
      setValue beq (subscribeN (mkObservable v0) n) v fuel =
        (⟨v, ⟨pureEntries n, n, false⟩⟩,
         (List.range n).map (fun k => (k, v)), true)) :=
  ⟨fun s v fuel h => setValue_suppressed T beq s v fuel h,
   fun v0 v n fuel h1 h2 => setValue_subscribeN T beq v0 v n fuel h1 h2⟩

/-- C8 witness: a redundant write of `5` over `5` with one subscriber notifies nobody; a
write of `7` over `0` with two subscribers delivers `7` to both, once each, in order. -/
theorem c8_observable_setter_witness :
    setValue (fun a b : Nat => a == b) (subscribeN (mkObservable 5) 1) 5 3 =
      (subscribeN (mkObservable 5) 1, [], true) ∧
    setValue (fun a b : Nat => a == b) (subscribeN (mkObservable 0) 2) 7 3 =
      (⟨7, ⟨pureEntries 2, 2, false⟩⟩, [(0, 7), (1, 7)], true) := by
  have h := c8_observable_setter Nat (fun a b : Nat => a == b)
  constructor
  · exact h.1 (subscribeN (mkObservable 5) 1) 5 3 (by decide)
  · rw [h.2 0 7 2 3 (by decide) (by decide)]
    decide

/-- C10: for an `Observable<number>` currently holding `NaN`, assigning `NaN` again is
never suppressed, because ECMAScript strict equality declares `NaN === NaN` false: the
store happens and every subscriber is notified once with the written `NaN`. -/
theorem c10_nan_write_not_suppressed (n fuel : Nat) (hf : n < fuel) :
    jsStrictEq JSNum.nan JSNum.nan = false ∧
    setValue jsStrictEq (subscribeN (mkObservable JSNum.nan) n) JSNum.nan fuel =
      (⟨JSNum.nan, ⟨pureEntries n, n, false⟩⟩,
       (List.range n).map (fun k => (k, JSNum.nan)), true) :=
  ⟨rfl, setValue_subscribeN JSNum jsStrictEq JSNum.nan JSNum.nan n fuel rfl hf⟩

/-- C10 witness: one subscriber, `NaN` written over `NaN`: the subscriber is notified. -/
theorem c10_nan_write_not_suppressed_witness :
    (1 : Nat) < 2 ∧
    setValue jsStrictEq (subscribeN (mkObservable JSNum.nan) 1) JSNum.nan 2 =
      (⟨JSNum.nan, ⟨pureEntries 1, 1, false⟩⟩, [(0, JSNum.nan)], true) := by
  have h := c10_nan_write_not_suppressed 1 2 (by decide)
  refine ⟨by decide, ?_⟩
  rw [h.2]
  rfl
